import Mathlib

/-
Verification development for the TranslateX translation orchestration core.

The model below is a shallow embedding of the translation service in
src/src/services/translationService.ts (the primary, OpenAI-based variant)
together with the pieces of the older service variants that the properties
under scrutiny name explicitly: the multi-provider status classification of
translateWithGoogle, and the mock-fallback translateText of the
fallback-enabled variant.

JavaScript strings are modelled as lists of characters (`S`): `String.prototype.length`
is `List.length`, string concatenation is list append, `split` is an explicit
splitter, and the regular expressions used by the source are modelled by
character-level state machines.  Asynchronous functions returning a value or
throwing become functions into `Except`; time-dependent behaviour (the rate
limiter, retry delays) is modelled by passing clock readings and jitter draws
explicitly.
-/

/-- JavaScript strings as character lists. -/
abbrev S := List Char

/-- Conversion from Lean string literals into the model. -/
def str (s : String) : S := s.data

/-- The character class matched by the JavaScript regular-expression escape
\s (also the class removed by String.prototype.trim). -/
def isJsWs (c : Char) : Bool :=
  c = ' ' || c = '\t' || c = '\n' || c = '\r' ||
  c.val = 0x0B || c.val = 0x0C || c.val = 0xA0 || c.val = 0x1680 ||
  (0x2000 ≤ c.val && c.val ≤ 0x200A) || c.val = 0x2028 || c.val = 0x2029 ||
  c.val = 0x202F || c.val = 0x205F || c.val = 0x3000 || c.val = 0xFEFF

/-- JavaScript `text.split(sep)` for a single-character separator, as used by
`text.split('\n')` and `sentence.split(' ')` in chunkText: every occurrence
of the separator ends a piece, and empty pieces are kept. -/
def splitOnChar (sep : Char) : S → List S
  | [] => [[]]
  | c :: cs =>
    match splitOnChar sep cs with
    | [] => [[c]]
    | piece :: rest =>
      if c = sep then [] :: piece :: rest
      else (c :: piece) :: rest

/-- The characters after which the sentence-splitting regular expression
(?<=[.!?])\s+ allows a split. -/
def isSentencePunct (c : Char) : Bool := c = '.' || c = '!' || c = '?'

/-- Whether the previously scanned character (if any) permits a sentence
split at the current position. -/
def prevIsPunct : Option Char → Bool
  | some c => isSentencePunct c
  | none => false

/-- State machine for `line.split(/(?<=[.!?])\s+/)`: a maximal run of
whitespace that directly follows `.`, `!` or `?` is consumed and ends the
current piece.  `prev` is the previously scanned character, `cur` the
current piece in reverse, `inRun` whether we are inside a consumed
whitespace run. -/
def splitSentencesGo : S → Option Char → S → Bool → List S
  | [], _, cur, _ => [cur.reverse]
  | c :: cs, prev, cur, inRun =>
    if inRun then
      if isJsWs c then splitSentencesGo cs (some c) cur true
      else splitSentencesGo cs (some c) (c :: cur) false
    else if isJsWs c && prevIsPunct prev then
      cur.reverse :: splitSentencesGo cs (some c) [] true
    else
      splitSentencesGo cs (some c) (c :: cur) false

/-- JavaScript `line.split(/(?<=[.!?])\s+/)` from chunkText. -/
def splitSentences (line : S) : List S :=
  splitSentencesGo line none [] false

/-- The innermost loop of chunkText (src/src/services/translationService.ts,
lines 119-134): accumulate words of an oversized sentence into word chunks. -/
def wordLoop (maxChunkSize : Nat) : List S → List S → S → List S × S
  | [], chunks, wordChunk => (chunks, wordChunk)
  | word :: ws, chunks, wordChunk =>
    if (wordChunk ++ [' '] ++ word).length ≤ maxChunkSize then
      wordLoop maxChunkSize ws chunks
        (wordChunk ++ (if wordChunk = [] then [] else [' ']) ++ word)
    else if wordChunk = [] then
      wordLoop maxChunkSize ws (chunks ++ [word]) wordChunk
    else
      wordLoop maxChunkSize ws (chunks ++ [wordChunk]) word

/-- The middle loop of chunkText (lines 110-141): accumulate sentences of an
oversized line, falling back to the word loop for oversized sentences. -/
def sentenceLoop (maxChunkSize : Nat) : List S → List S → S → List S × S
  | [], chunks, sentenceChunk => (chunks, sentenceChunk)
  | sentence :: ss, chunks, sentenceChunk =>
    if (sentenceChunk ++ [' '] ++ sentence).length ≤ maxChunkSize then
      sentenceLoop maxChunkSize ss chunks
        (sentenceChunk ++ (if sentenceChunk = [] then [] else [' ']) ++ sentence)
    else if sentenceChunk = [] then
      sentenceLoop maxChunkSize ss
        (wordLoop maxChunkSize (splitOnChar ' ' sentence) chunks []).1
        (if (wordLoop maxChunkSize (splitOnChar ' ' sentence) chunks []).2 = []
         then sentenceChunk
         else (wordLoop maxChunkSize (splitOnChar ' ' sentence) chunks []).2)
    else
      sentenceLoop maxChunkSize ss (chunks ++ [sentenceChunk]) sentence

/-- The outer loop of chunkText (lines 98-148): accumulate lines, falling
back to the sentence loop when an oversized line arrives while the running
buffer is empty. -/
def lineLoop (maxChunkSize : Nat) : List S → List S → S → List S × S
  | [], chunks, currentChunk => (chunks, currentChunk)
  | line :: ls, chunks, currentChunk =>
    if (currentChunk ++ ['\n'] ++ line).length ≤ maxChunkSize then
      lineLoop maxChunkSize ls chunks
        (currentChunk ++ (if currentChunk = [] then [] else ['\n']) ++ line)
    else if currentChunk = [] then
      lineLoop maxChunkSize ls
        (sentenceLoop maxChunkSize (splitSentences line) chunks []).1
        (if (sentenceLoop maxChunkSize (splitSentences line) chunks []).2 = []
         then currentChunk
         else (sentenceLoop maxChunkSize (splitSentences line) chunks []).2)
    else
      lineLoop maxChunkSize ls (chunks ++ [currentChunk]) line

/-- The chunk list accumulated by the line loop of chunkText, with the final
`if (currentChunk) chunks.push(currentChunk)` applied. -/
def chunkTextCollected (text : S) (maxChunkSize : Nat) : List S :=
  if (lineLoop maxChunkSize (splitOnChar '\n' text) [] []).2 = []
  then (lineLoop maxChunkSize (splitOnChar '\n' text) [] []).1
  else (lineLoop maxChunkSize (splitOnChar '\n' text) [] []).1
       ++ [(lineLoop maxChunkSize (splitOnChar '\n' text) [] []).2]

/-- chunkText from src/src/services/translationService.ts (lines 89-155). -/
def chunkText (text : S) (maxChunkSize : Nat) : List S :=
  if text.length ≤ maxChunkSize then [text]
  else if chunkTextCollected text maxChunkSize = [] then [text]
  else chunkTextCollected text maxChunkSize

/-- The characters that survive whitespace normalization: chunkText only ever
consumes whitespace (newlines, spaces, \s runs) at piece boundaries and only
ever inserts whitespace joiners, so these are the characters a faithful
chunker must preserve. -/
def keepContent (s : S) : S := s.filter (fun c => !isJsWs c)

/-- Non-whitespace characters of a chunk list, in order. -/
def keepContents (l : List S) : S := (l.map keepContent).flatten

lemma keepContents_nil : keepContents [] = [] := rfl

lemma keepContents_cons (a : S) (l : List S) :
    keepContents (a :: l) = keepContent a ++ keepContents l := rfl

lemma keepContents_append (l₁ l₂ : List S) :
    keepContents (l₁ ++ l₂) = keepContents l₁ ++ keepContents l₂ := by
  simp [keepContents, List.flatten_append]

lemma keepContent_append (a b : S) :
    keepContent (a ++ b) = keepContent a ++ keepContent b := by
  simp [keepContent, List.filter_append]

lemma keepContent_space_sep (b : Prop) [Decidable b] :
    keepContent (if b then [] else [' ']) = [] := by
  split <;> rfl

lemma keepContent_newline_sep (b : Prop) [Decidable b] :
    keepContent (if b then [] else ['\n']) = [] := by
  split <;> rfl

lemma splitOnChar_exists_cons (sep : Char) (s : S) :
    ∃ a l, splitOnChar sep s = a :: l := by
  induction s with
  | nil => exact ⟨[], [], rfl⟩
  | cons c cs ih =>
    rcases ih with ⟨a, l, h⟩
    by_cases hc : c = sep
    · exact ⟨[], a :: l, by simp [splitOnChar, h, hc]⟩
    · exact ⟨c :: a, l, by simp [splitOnChar, h, hc]⟩

lemma splitOnChar_ne_nil (sep : Char) (s : S) : splitOnChar sep s ≠ [] := by
  rcases splitOnChar_exists_cons sep s with ⟨a, l, h⟩
  simp [h]

lemma splitOnChar_content (sep : Char) (hsep : isJsWs sep = true) :
    ∀ s : S, keepContents (splitOnChar sep s) = keepContent s := by
  intro s
  induction s with
  | nil => rfl
  | cons c cs ih =>
    rcases splitOnChar_exists_cons sep cs with ⟨piece, rest, hs⟩
    rw [hs] at ih
    rw [keepContents_cons] at ih
    by_cases hc : c = sep
    · rw [show splitOnChar sep (c :: cs) = [] :: piece :: rest by
        simp [splitOnChar, hs, hc]]
      rw [keepContents_cons, keepContents_cons]
      subst hc
      simp only [keepContent, List.filter_cons, hsep, List.filter_nil]
      simpa [keepContent] using ih
    · rw [show splitOnChar sep (c :: cs) = (c :: piece) :: rest by
        simp [splitOnChar, hs, hc]]
      rw [keepContents_cons]
      simp only [keepContent, List.filter_cons] at ih ⊢
      cases hw : isJsWs c <;> simp [hw, ih]

lemma splitOnChar_not_mem (sep : Char) :
    ∀ (s piece : S), piece ∈ splitOnChar sep s → sep ∉ piece := by
  intro s
  induction s with
  | nil =>
    intro piece h
    simp [splitOnChar] at h
    simp [h]
  | cons c cs ih =>
    intro piece h
    rcases splitOnChar_exists_cons sep cs with ⟨piece0, rest, hs⟩
    by_cases hc : c = sep
    · rw [show splitOnChar sep (c :: cs) = [] :: piece0 :: rest by
        simp [splitOnChar, hs, hc]] at h
      rcases List.mem_cons.mp h with h1 | h2
      · simp [h1]
      · exact ih piece (hs ▸ h2)
    · rw [show splitOnChar sep (c :: cs) = (c :: piece0) :: rest by
        simp [splitOnChar, hs, hc]] at h
      rcases List.mem_cons.mp h with h1 | h2
      · subst h1
        intro hmem
        rcases List.mem_cons.mp hmem with h3 | h4
        · exact hc h3.symm
        · exact ih piece0 (hs ▸ List.mem_cons_self piece0 rest) h4
      · exact ih piece (hs ▸ List.mem_cons.mpr (Or.inr h2))

lemma splitOnChar_chars (sep : Char) :
    ∀ (s piece : S), piece ∈ splitOnChar sep s → ∀ c ∈ piece, c ∈ s := by
  intro s
  induction s with
  | nil =>
    intro piece h
    simp [splitOnChar] at h
    simp [h]
  | cons c cs ih =>
    intro piece h ch hch
    rcases splitOnChar_exists_cons sep cs with ⟨piece0, rest, hs⟩
    by_cases hc : c = sep
    · rw [show splitOnChar sep (c :: cs) = [] :: piece0 :: rest by
        simp [splitOnChar, hs, hc]] at h
      rcases List.mem_cons.mp h with h1 | h2
      · subst h1; simp at hch
      · exact List.mem_cons.mpr (Or.inr (ih piece (hs ▸ h2) ch hch))
    · rw [show splitOnChar sep (c :: cs) = (c :: piece0) :: rest by
        simp [splitOnChar, hs, hc]] at h
      rcases List.mem_cons.mp h with h1 | h2
      · subst h1
        rcases List.mem_cons.mp hch with h3 | h4
        · exact List.mem_cons.mpr (Or.inl h3)
        · exact List.mem_cons.mpr
            (Or.inr (ih piece0 (hs ▸ List.mem_cons_self piece0 rest) ch h4))
      · exact List.mem_cons.mpr
          (Or.inr (ih piece (hs ▸ List.mem_cons.mpr (Or.inr h2)) ch hch))

lemma splitSentencesGo_content :
    ∀ (cs : S) (prev : Option Char) (cur : S) (inRun : Bool),
      keepContents (splitSentencesGo cs prev cur inRun)
        = keepContent cur.reverse ++ keepContent cs := by
  intro cs
  induction cs with
  | nil =>
    intro prev cur inRun
    simp [splitSentencesGo, keepContents_cons, keepContents_nil, keepContent]
  | cons c cs ih =>
    intro prev cur inRun
    simp only [splitSentencesGo]
    split
    · split
      · rename_i hrun hw
        rw [ih]
        simp [keepContent, List.filter_cons, hw]
      · rename_i hrun hw
        have hw' : isJsWs c = false := by simpa using hw
        rw [ih]
        simp [keepContent, List.filter_cons, List.filter_append, hw',
          List.append_assoc]
    · split
      · rename_i hrun hcond
        have hw : isJsWs c = true := (Bool.and_eq_true _ _ ▸ hcond).1
        rw [keepContents_cons, ih]
        simp [keepContent, List.filter_cons, hw]
      · rename_i hrun hcond
        rw [ih]
        cases hw : isJsWs c <;>
          simp [keepContent, List.filter_cons, List.filter_append, hw,
            List.append_assoc]

lemma splitSentencesGo_chars :
    ∀ (cs : S) (prev : Option Char) (cur : S) (inRun : Bool) (piece : S),
      piece ∈ splitSentencesGo cs prev cur inRun → ∀ ch ∈ piece, ch ∈ cur ∨ ch ∈ cs := by
  intro cs
  induction cs with
  | nil =>
    intro prev cur inRun piece h ch hch
    simp [splitSentencesGo] at h
    subst h
    exact Or.inl (List.mem_reverse.mp hch)
  | cons c cs ih =>
    intro prev cur inRun piece h ch hch
    simp only [splitSentencesGo] at h
    split at h
    · split at h
      · rcases ih _ _ _ piece h ch hch with h1 | h2
        · exact Or.inl h1
        · exact Or.inr (List.mem_cons.mpr (Or.inr h2))
      · rcases ih _ _ _ piece h ch hch with h1 | h2
        · rcases List.mem_cons.mp h1 with h3 | h4
          · exact Or.inr (List.mem_cons.mpr (Or.inl h3))
          · exact Or.inl h4
        · exact Or.inr (List.mem_cons.mpr (Or.inr h2))
    · split at h
      · rcases List.mem_cons.mp h with h1 | h2
        · subst h1
          exact Or.inl (List.mem_reverse.mp hch)
        · rcases ih _ _ _ piece h2 ch hch with h1 | h2'
          · simp at h1
          · exact Or.inr (List.mem_cons.mpr (Or.inr h2'))
      · rcases ih _ _ _ piece h ch hch with h1 | h2
        · rcases List.mem_cons.mp h1 with h3 | h4
          · exact Or.inr (List.mem_cons.mpr (Or.inl h3))
          · exact Or.inl h4
        · exact Or.inr (List.mem_cons.mpr (Or.inr h2))

lemma splitSentences_content (line : S) :
    keepContents (splitSentences line) = keepContent line := by
  simpa [keepContent] using splitSentencesGo_content line none [] false

lemma splitSentences_chars (line piece : S) (h : piece ∈ splitSentences line) :
    ∀ ch ∈ piece, ch ∈ line := by
  intro ch hch
  rcases splitSentencesGo_chars line none [] false piece h ch hch with h1 | h2
  · simp at h1
  · exact h2

lemma wordLoop_content (maxChunkSize : Nat) :
    ∀ (ws chunks : List S) (wc : S),
      keepContents (wordLoop maxChunkSize ws chunks wc).1
          ++ keepContent (wordLoop maxChunkSize ws chunks wc).2
        = keepContents chunks ++ keepContent wc ++ keepContents ws := by
  intro ws
  induction ws with
  | nil =>
    intro chunks wc
    simp [wordLoop, keepContents_nil]
  | cons w ws ih =>
    intro chunks wc
    simp only [wordLoop]
    split
    · rw [ih, keepContent_append, keepContent_append, keepContent_space_sep]
      simp [keepContents_cons, List.append_assoc]
    · split
      · rename_i hc1 hc2
        rw [ih, keepContents_append]
        simp [keepContents_cons, keepContents_nil, hc2, keepContent,
          List.append_assoc]
      · rename_i hc1 hc2
        rw [ih, keepContents_append]
        simp [keepContents_cons, keepContents_nil, List.append_assoc]

lemma sentenceLoop_content (maxChunkSize : Nat) :
    ∀ (ss chunks : List S) (sc : S),
      keepContents (sentenceLoop maxChunkSize ss chunks sc).1
          ++ keepContent (sentenceLoop maxChunkSize ss chunks sc).2
        = keepContents chunks ++ keepContent sc ++ keepContents ss := by
  intro ss
  induction ss with
  | nil =>
    intro chunks sc
    simp [sentenceLoop, keepContents_nil]
  | cons s ss ih =>
    intro chunks sc
    simp only [sentenceLoop]
    split
    · rw [ih, keepContent_append, keepContent_append, keepContent_space_sep]
      simp [keepContents_cons, List.append_assoc]
    · split
      · rename_i hc1 hc2
        rw [ih]
        have hw := wordLoop_content maxChunkSize (splitOnChar ' ' s) chunks []
        rw [splitOnChar_content ' ' (by decide) s] at hw
        have hC : keepContent
            (if (wordLoop maxChunkSize (splitOnChar ' ' s) chunks []).2 = []
             then sc
             else (wordLoop maxChunkSize (splitOnChar ' ' s) chunks []).2)
            = keepContent (wordLoop maxChunkSize (splitOnChar ' ' s) chunks []).2 := by
          split
          · rename_i h2
            rw [hc2, h2]
          · rfl
        rw [hC, hw]
        simp [keepContents_cons, hc2, keepContent, List.append_assoc]
      · rename_i hc1 hc2
        rw [ih, keepContents_append]
        simp [keepContents_cons, keepContents_nil, List.append_assoc]

lemma lineLoop_content (maxChunkSize : Nat) :
    ∀ (ls chunks : List S) (cc : S),
      keepContents (lineLoop maxChunkSize ls chunks cc).1
          ++ keepContent (lineLoop maxChunkSize ls chunks cc).2
        = keepContents chunks ++ keepContent cc ++ keepContents ls := by
  intro ls
  induction ls with
  | nil =>
    intro chunks cc
    simp [lineLoop, keepContents_nil]
  | cons l ls ih =>
    intro chunks cc
    simp only [lineLoop]
    split
    · rw [ih, keepContent_append, keepContent_append, keepContent_newline_sep]
      simp [keepContents_cons, List.append_assoc]
    · split
      · rename_i hc1 hc2
        rw [ih]
        have hw := sentenceLoop_content maxChunkSize (splitSentences l) chunks []
        rw [splitSentences_content l] at hw
        have hC : keepContent
            (if (sentenceLoop maxChunkSize (splitSentences l) chunks []).2 = []
             then cc
             else (sentenceLoop maxChunkSize (splitSentences l) chunks []).2)
            = keepContent (sentenceLoop maxChunkSize (splitSentences l) chunks []).2 := by
          split
          · rename_i h2
            rw [hc2, h2]
          · rfl
        rw [hC, hw]
        simp [keepContents_cons, hc2, keepContent, List.append_assoc]
      · rename_i hc1 hc2
        rw [ih, keepContents_append]
        simp [keepContents_cons, keepContents_nil, List.append_assoc]

/-- The non-whitespace characters of the chunks, concatenated in order, are
exactly the non-whitespace characters of the input, in order: chunkText
loses no content and preserves source order; all it can do at boundaries is
consume or insert whitespace. -/
lemma chunkText_content (text : S) (maxChunkSize : Nat) :
    keepContents (chunkText text maxChunkSize) = keepContent text := by
  unfold chunkText
  split
  · simp [keepContents_cons, keepContents_nil]
  · have hl := lineLoop_content maxChunkSize (splitOnChar '\n' text) [] []
    rw [splitOnChar_content '\n' (by decide) text] at hl
    have hcol : keepContents (chunkTextCollected text maxChunkSize) = keepContent text := by
      unfold chunkTextCollected
      split
      · rename_i h2
        rw [h2] at hl
        simpa [keepContents_nil, keepContent] using hl
      · rw [keepContents_append]
        simpa [keepContents_cons, keepContents_nil, keepContent] using hl
    split
    · rename_i hnil
      rw [hnil] at hcol
      simp [keepContents_nil] at hcol
      simp [keepContents_cons, keepContents_nil, ← hcol]
    · exact hcol

lemma mem_append_singleton {α : Type} {ch x : α} {l : List α}
    (h : ch ∈ l ++ [x]) : ch ∈ l ∨ ch = x := by
  rcases List.mem_append.mp h with h1 | h2
  · exact Or.inl h1
  · simp at h2
    exact Or.inr h2

lemma newline_not_mem_space_join {a w : S} (ha : '\n' ∉ a) (hw : '\n' ∉ w)
    (b : Prop) [Decidable b] :
    '\n' ∉ a ++ (if b then [] else [' ']) ++ w := by
  intro hmem
  rcases List.mem_append.mp hmem with h1 | h2
  · rcases List.mem_append.mp h1 with h3 | h4
    · exact ha h3
    · split at h4 <;> simp at h4
  · exact hw h2

lemma wordLoop_no_newline (maxChunkSize : Nat) :
    ∀ (ws chunks : List S) (wc : S),
      (∀ w ∈ ws, '\n' ∉ w) → '\n' ∉ wc →
      (∀ ch ∈ chunks, ch.length ≤ maxChunkSize ∨ '\n' ∉ ch) →
      (∀ ch ∈ (wordLoop maxChunkSize ws chunks wc).1,
          ch.length ≤ maxChunkSize ∨ '\n' ∉ ch)
        ∧ '\n' ∉ (wordLoop maxChunkSize ws chunks wc).2 := by
  intro ws
  induction ws with
  | nil =>
    intro chunks wc hws hwc hch
    exact ⟨hch, hwc⟩
  | cons w ws ih =>
    intro chunks wc hws hwc hch
    have hw : '\n' ∉ w := hws w (List.mem_cons_self w ws)
    have hws' : ∀ x ∈ ws, '\n' ∉ x := fun x hx => hws x (List.mem_cons.mpr (Or.inr hx))
    simp only [wordLoop]
    split
    · exact ih chunks _ hws' (newline_not_mem_space_join hwc hw _) hch
    · split
      · refine ih (chunks ++ [w]) wc hws' hwc ?_
        intro ch hmem
        rcases mem_append_singleton hmem with h1 | h2
        · exact hch ch h1
        · exact Or.inr (h2 ▸ hw)
      · refine ih (chunks ++ [wc]) w hws' hw ?_
        intro ch hmem
        rcases mem_append_singleton hmem with h1 | h2
        · exact hch ch h1
        · exact Or.inr (h2 ▸ hwc)

lemma sentenceLoop_no_newline (maxChunkSize : Nat) :
    ∀ (ss chunks : List S) (sc : S),
      (∀ s ∈ ss, '\n' ∉ s) → '\n' ∉ sc →
      (∀ ch ∈ chunks, ch.length ≤ maxChunkSize ∨ '\n' ∉ ch) →
      (∀ ch ∈ (sentenceLoop maxChunkSize ss chunks sc).1,
          ch.length ≤ maxChunkSize ∨ '\n' ∉ ch)
        ∧ '\n' ∉ (sentenceLoop maxChunkSize ss chunks sc).2 := by
  intro ss
  induction ss with
  | nil =>
    intro chunks sc hss hsc hch
    exact ⟨hch, hsc⟩
  | cons s ss ih =>
    intro chunks sc hss hsc hch
    have hs : '\n' ∉ s := hss s (List.mem_cons_self s ss)
    have hss' : ∀ x ∈ ss, '\n' ∉ x := fun x hx => hss x (List.mem_cons.mpr (Or.inr hx))
    simp only [sentenceLoop]
    split
    · exact ih chunks _ hss' (newline_not_mem_space_join hsc hs _) hch
    · split
      · have hwords : ∀ w ∈ splitOnChar ' ' s, '\n' ∉ w := by
          intro w hwmem hnl
          exact hs (splitOnChar_chars ' ' s w hwmem '\n' hnl)
        have hword := wordLoop_no_newline maxChunkSize (splitOnChar ' ' s) chunks []
          hwords (by simp) hch
        refine ih _ _ hss' ?_ hword.1
        split
        · rename_i h2
          simpa [h2] using hsc
        · exact hword.2
      · refine ih (chunks ++ [sc]) s hss' hs ?_
        intro ch hmem
        rcases mem_append_singleton hmem with h1 | h2
        · exact hch ch h1
        · exact Or.inr (h2 ▸ hsc)

lemma lineLoop_size_bound (maxChunkSize : Nat) :
    ∀ (ls chunks : List S) (cc : S),
      (∀ l ∈ ls, '\n' ∉ l) →
      (cc.length ≤ maxChunkSize ∨ '\n' ∉ cc) →
      (∀ ch ∈ chunks, ch.length ≤ maxChunkSize ∨ '\n' ∉ ch) →
      (∀ ch ∈ (lineLoop maxChunkSize ls chunks cc).1,
          ch.length ≤ maxChunkSize ∨ '\n' ∉ ch)
        ∧ ((lineLoop maxChunkSize ls chunks cc).2.length ≤ maxChunkSize
            ∨ '\n' ∉ (lineLoop maxChunkSize ls chunks cc).2) := by
  intro ls
  induction ls with
  | nil =>
    intro chunks cc hls hcc hch
    exact ⟨hch, hcc⟩
  | cons l ls ih =>
    intro chunks cc hls hcc hch
    have hl : '\n' ∉ l := hls l (List.mem_cons_self l ls)
    have hls' : ∀ x ∈ ls, '\n' ∉ x := fun x hx => hls x (List.mem_cons.mpr (Or.inr hx))
    simp only [lineLoop]
    split
    · rename_i hc1
      refine ih chunks _ hls' (Or.inl ?_) hch
      have hlen : (cc ++ ['\n'] ++ l).length ≤ maxChunkSize := hc1
      simp only [List.length_append, List.length_cons, List.length_nil] at hlen
      split <;> simp only [List.length_append, List.length_cons, List.length_nil] <;> omega
    · split
      · rename_i hccnil
        have hsents : ∀ s ∈ splitSentences l, '\n' ∉ s := by
          intro s hsmem hnl
          exact hl (splitSentences_chars l s hsmem '\n' hnl)
        have hsent := sentenceLoop_no_newline maxChunkSize (splitSentences l) chunks []
          hsents (by simp) hch
        refine ih _ _ hls' ?_ hsent.1
        split
        · exact Or.inl (by simp [hccnil])
        · exact Or.inr hsent.2
      · refine ih (chunks ++ [cc]) l hls' (Or.inr hl) ?_
        intro ch hmem
        rcases mem_append_singleton hmem with h1 | h2
        · exact hch ch h1
        · exact h2 ▸ hcc

lemma wordLoop_ne_nil (maxChunkSize : Nat) (hmax : 1 ≤ maxChunkSize) :
    ∀ (ws chunks : List S) (wc : S),
      (∀ ch ∈ chunks, ch ≠ []) →
      ∀ ch ∈ (wordLoop maxChunkSize ws chunks wc).1, ch ≠ [] := by
  intro ws
  induction ws with
  | nil =>
    intro chunks wc hch
    exact hch
  | cons w ws ih =>
    intro chunks wc hch
    simp only [wordLoop]
    split
    · exact ih chunks _ hch
    · split
      · rename_i hc1 hc2
        refine ih _ _ ?_
        intro ch hmem
        rcases mem_append_singleton hmem with h1 | h2
        · exact hch ch h1
        · intro hnil
          apply hc1
          have hw0 : w = [] := h2.symm.trans hnil
          rw [hc2, hw0]
          simpa using hmax
      · rename_i hc1 hc2
        refine ih _ _ ?_
        intro ch hmem
        rcases mem_append_singleton hmem with h1 | h2
        · exact hch ch h1
        · exact h2 ▸ hc2

lemma sentenceLoop_ne_nil (maxChunkSize : Nat) (hmax : 1 ≤ maxChunkSize) :
    ∀ (ss chunks : List S) (sc : S),
      (∀ ch ∈ chunks, ch ≠ []) →
      ∀ ch ∈ (sentenceLoop maxChunkSize ss chunks sc).1, ch ≠ [] := by
  intro ss
  induction ss with
  | nil =>
    intro chunks sc hch
    exact hch
  | cons s ss ih =>
    intro chunks sc hch
    simp only [sentenceLoop]
    split
    · exact ih chunks _ hch
    · split
      · exact ih _ _ (wordLoop_ne_nil maxChunkSize hmax (splitOnChar ' ' s) chunks [] hch)
      · rename_i hc1 hc2
        refine ih _ _ ?_
        intro ch hmem
        rcases mem_append_singleton hmem with h1 | h2
        · exact hch ch h1
        · exact h2 ▸ hc2

lemma lineLoop_ne_nil (maxChunkSize : Nat) (hmax : 1 ≤ maxChunkSize) :
    ∀ (ls chunks : List S) (cc : S),
      (∀ ch ∈ chunks, ch ≠ []) →
      ∀ ch ∈ (lineLoop maxChunkSize ls chunks cc).1, ch ≠ [] := by
  intro ls
  induction ls with
  | nil =>
    intro chunks cc hch
    exact hch
  | cons l ls ih =>
    intro chunks cc hch
    simp only [lineLoop]
    split
    · exact ih chunks _ hch
    · split
      · exact ih _ _ (sentenceLoop_ne_nil maxChunkSize hmax (splitSentences l) chunks [] hch)
      · rename_i hc1 hc2
        refine ih _ _ ?_
        intro ch hmem
        rcases mem_append_singleton hmem with h1 | h2
        · exact hch ch h1
        · exact h2 ▸ hc2

/-- C5 (counterexample): with maxSize 5 the input line "bb bb bb" (length 8)
overflows a non-empty buffer and is emitted whole, although it is not a
single indivisible token: it contains spaces, and the word splitter would
divide it into three words.  This refutes the claim that every oversized
chunk is a single indivisible token and that an oversized line is always
further split at sentence and word boundaries. -/
theorem chunkText_size_bound_counterexample :
    chunkText (str "a\nbb bb bb\nc") 5 = [str "a", str "bb bb bb", str "c"] ∧
    5 < (str "bb bb bb").length ∧
    ' ' ∈ str "bb bb bb" ∧
    splitOnChar ' ' (str "bb bb bb") = [str "bb", str "bb", str "bb"] := by
  decide

/-- C5 (amended): every chunk produced by chunkText is within the size
bound, or contains no line break (the oversized escape hatch covers not
only single indivisible tokens but any oversized line, sentence or word
emitted verbatim from the single-line fallback paths), or is the whole
input returned verbatim when no chunk was accumulated. -/
theorem chunkText_size_bound_with_line_exception (text : S) (maxSize : Nat)
    (chunk : S) (hmem : chunk ∈ chunkText text maxSize) :
    chunk.length ≤ maxSize ∨ '\n' ∉ chunk ∨ chunk = text := by
  unfold chunkText at hmem
  split at hmem
  · simp at hmem
    exact Or.inr (Or.inr hmem)
  · split at hmem
    · simp at hmem
      exact Or.inr (Or.inr hmem)
    · have hlines : ∀ l ∈ splitOnChar '\n' text, '\n' ∉ l :=
        fun l hl => splitOnChar_not_mem '\n' text l hl
      have hmain := lineLoop_size_bound maxSize (splitOnChar '\n' text) [] []
        hlines (Or.inl (by simp)) (by simp)
      unfold chunkTextCollected at hmem
      split at hmem
      · rcases hmain.1 chunk hmem with h | h
        · exact Or.inl h
        · exact Or.inr (Or.inl h)
      · rcases mem_append_singleton hmem with h1 | h2
        · rcases hmain.1 chunk h1 with h | h
          · exact Or.inl h
          · exact Or.inr (Or.inl h)
        · rcases hmain.2 with h | h
          · exact Or.inl (h2 ▸ h)
          · exact Or.inr (Or.inl (h2 ▸ h))

/-- Witness for the amended C5 theorem at the counterexample input: the
oversized chunk "bb bb bb" is covered by the no-line-break exception. -/
theorem chunkText_size_bound_with_line_exception_witness :
    (str "bb bb bb").length ≤ 5 ∨ '\n' ∉ str "bb bb bb" ∨
      str "bb bb bb" = str "a\nbb bb bb\nc" :=
  chunkText_size_bound_with_line_exception (str "a\nbb bb bb\nc") 5
    (str "bb bb bb") (by decide)

/-- C6 (counterexample): on the empty input (which the claim quantifies
over) the fast path returns the singleton list containing the empty chunk,
refuting "a non-empty sequence of non-empty chunks". -/
theorem chunkText_roundtrip_counterexample :
    chunkText [] 1 = [[]] ∧ [] ∈ chunkText [] 1 := by
  decide

/-- C6 (amended): chunkText always returns a non-empty sequence; its chunks
concatenate (in source order) to exactly the non-whitespace characters of
the input, so nothing but whitespace at the piece boundaries is consumed or
normalized to the joiner; and for a non-empty input with maxSize at least 1
every chunk is non-empty. -/
theorem chunkText_roundtrip_amended (text : S) (maxSize : Nat) :
    chunkText text maxSize ≠ [] ∧
    keepContents (chunkText text maxSize) = keepContent text ∧
    (1 ≤ maxSize → text ≠ [] → ∀ chunk ∈ chunkText text maxSize, chunk ≠ []) := by
  refine ⟨?_, chunkText_content text maxSize, ?_⟩
  · unfold chunkText
    split
    · simp
    · split
      · simp
      · rename_i h2
        exact h2
  · intro hmax htext chunk hmem
    unfold chunkText at hmem
    split at hmem
    · simp at hmem
      exact hmem ▸ htext
    · split at hmem
      · simp at hmem
        exact hmem ▸ htext
      · unfold chunkTextCollected at hmem
        have hmain := lineLoop_ne_nil maxSize hmax (splitOnChar '\n' text) [] [] (by simp)
        split at hmem
        · exact hmain chunk hmem
        · rename_i hcc
          rcases mem_append_singleton hmem with h1 | h2
          · exact hmain chunk h1
          · exact h2 ▸ hcc

/-- Witness for the amended C6 theorem at a concrete input, with both
hypotheses of the non-emptiness conjunct discharged. -/
theorem chunkText_roundtrip_amended_witness :
    chunkText (str "hello world") 3 ≠ [] ∧
    keepContents (chunkText (str "hello world") 3) = keepContent (str "hello world") ∧
    ∀ chunk ∈ chunkText (str "hello world") 3, chunk ≠ [] :=
  ⟨(chunkText_roundtrip_amended (str "hello world") 3).1,
   (chunkText_roundtrip_amended (str "hello world") 3).2.1,
   (chunkText_roundtrip_amended (str "hello world") 3).2.2 (by decide) (by decide)⟩

/-- C7: whenever the input already fits in one chunk, chunkText returns
exactly the singleton list holding the input itself. -/
theorem chunkText_singleton_fast_path (text : S) (maxSize : Nat)
    (h : text.length ≤ maxSize) :
    chunkText text maxSize = [text] := by
  unfold chunkText
  rw [if_pos h]

/-- Witness for the C7 theorem at a concrete input. -/
theorem chunkText_singleton_fast_path_witness :
    (str "Hello").length ≤ 1500 ∧ chunkText (str "Hello") 1500 = [str "Hello"] :=
  ⟨by decide, chunkText_singleton_fast_path (str "Hello") 1500 (by decide)⟩

/-- The delay withRetry sleeps before a given attempt (attempt numbering
starts at 0): attempt 0 runs immediately, attempt n sleeps
baseDelay * 2 ^ (n - 1) plus the jitter draw Math.random() * 1000 for that
attempt. -/
def attemptDelay (baseDelay : Nat) (jitter : Nat → Nat) (attempt : Nat) : Option Nat :=
  if attempt = 0 then none else some (baseDelay * 2 ^ (attempt - 1) + jitter attempt)

/-- The attempt loop of withRetry (src/src/services/translationService.ts,
lines 60-86).  `attempt` is the current attempt index, `rem` the number of
attempts remaining after this one (so the loop started with
rem = maxRetries at attempt 0).  The operation is modelled as a function of
the attempt index into Except; besides the outcome the model returns the
number of invocations performed and the per-attempt pre-delays. -/
def retryGo {E A : Type} (op : Nat → Except E A) (baseDelay : Nat) (jitter : Nat → Nat) :
    Nat → Nat → Except E A × Nat × List (Option Nat)
  | attempt, 0 => (op attempt, 1, [attemptDelay baseDelay jitter attempt])
  | attempt, rem + 1 =>
    match op attempt with
    | .ok a => (.ok a, 1, [attemptDelay baseDelay jitter attempt])
    | .error _ =>
      ((retryGo op baseDelay jitter (attempt + 1) rem).1,
       (retryGo op baseDelay jitter (attempt + 1) rem).2.1 + 1,
       attemptDelay baseDelay jitter attempt
         :: (retryGo op baseDelay jitter (attempt + 1) rem).2.2)

/-- withRetry from src/src/services/translationService.ts (lines 60-86):
runs attempts 0 .. maxRetries, returning the first success, and after the
final failed attempt rethrows the last error. -/
def withRetry {E A : Type} (op : Nat → Except E A) (maxRetries baseDelay : Nat)
    (jitter : Nat → Nat) : Except E A × Nat × List (Option Nat) :=
  retryGo op baseDelay jitter 0 maxRetries

lemma retryGo_const_error {E A : Type} (e : E) (baseDelay : Nat) (jitter : Nat → Nat) :
    ∀ rem attempt : Nat,
      (retryGo (fun _ => (Except.error e : Except E A)) baseDelay jitter attempt rem).1
          = Except.error e ∧
      (retryGo (fun _ => (Except.error e : Except E A)) baseDelay jitter attempt rem).2.1
          = rem + 1 ∧
      (retryGo (fun _ => (Except.error e : Except E A)) baseDelay jitter attempt rem).2.2.head?
          = some (attemptDelay baseDelay jitter attempt) := by
  intro rem
  induction rem with
  | zero =>
    intro attempt
    simp [retryGo]
  | succ rem ih =>
    intro attempt
    simp [retryGo, (ih (attempt + 1)).1, (ih (attempt + 1)).2.1]

/-- C4: withRetry applied to an operation that always throws the error e
performs exactly maxRetries + 1 invocations of the operation, rethrows
exactly the error value e itself (identity and message preserved), and runs
attempt 0 with no preceding delay. -/
theorem withRetry_exhausts_and_rethrows {E A : Type} (e : E)
    (maxRetries baseDelay : Nat) (jitter : Nat → Nat) :
    (withRetry (fun _ => (Except.error e : Except E A)) maxRetries baseDelay jitter).1
        = Except.error e ∧
    (withRetry (fun _ => (Except.error e : Except E A)) maxRetries baseDelay jitter).2.1
        = maxRetries + 1 ∧
    (withRetry (fun _ => (Except.error e : Except E A)) maxRetries baseDelay jitter).2.2.head?
        = some none := by
  have h := @retryGo_const_error E A e baseDelay jitter maxRetries 0
  refine ⟨h.1, h.2.1, ?_⟩
  rw [withRetry, h.2.2]
  simp [attemptDelay]

/-- RateLimiter from src/src/services/translationService.ts (lines 36-55):
lastCall is the stored timestamp (initially 0), interval the constructor
argument minInterval.  Times are millisecond clock readings. -/
structure RateLimiter where
  lastCall : Int
  interval : Int

/-- RateLimiter.wait with an explicit clock: now is Date.now() at entry.
The timer is idealized as exact, so after sleeping waitTime the second
Date.now() reads now + waitTime.  Returns the instant at which wait()
returns control, paired with the updated limiter state. -/
def RateLimiter.wait (s : RateLimiter) (now : Int) : Int × RateLimiter :=
  if now - s.lastCall < s.interval then
    (now + (s.interval - (now - s.lastCall)),
     { s with lastCall := now + (s.interval - (now - s.lastCall)) })
  else
    (now, { s with lastCall := now })

/-- A sequence of wait() calls on one limiter at the given start times,
threading the limiter state; yields the (start, return) instant pairs. -/
def rateLimiterRun (s : RateLimiter) : List Int → List (Int × Int)
  | [] => []
  | t :: ts => (t, (s.wait t).1) :: rateLimiterRun (s.wait t).2 ts

lemma RateLimiter.wait_ret_ge (s : RateLimiter) (now : Int) :
    s.lastCall + s.interval ≤ (s.wait now).1 := by
  unfold RateLimiter.wait
  split <;> rename_i h <;> dsimp only <;> omega

lemma RateLimiter.wait_lastCall_eq (s : RateLimiter) (now : Int) :
    (s.wait now).2.lastCall = (s.wait now).1 := by
  unfold RateLimiter.wait
  split <;> rfl

lemma RateLimiter.wait_interval_eq (s : RateLimiter) (now : Int) :
    (s.wait now).2.interval = s.interval := by
  unfold RateLimiter.wait
  split <;> rfl

lemma RateLimiter.wait_ret_max (s : RateLimiter) (now : Int) :
    (s.wait now).1 = max now (s.lastCall + s.interval) := by
  unfold RateLimiter.wait
  rcases le_total now (s.lastCall + s.interval) with h | h
  · rw [max_eq_right h]
    split <;> rename_i hc <;> dsimp only <;> omega
  · rw [max_eq_left h]
    split <;> rename_i hc <;> dsimp only <;> omega

lemma rateLimiterRun_head_ret (s : RateLimiter) (ts : List Int) :
    ∀ q ∈ (rateLimiterRun s ts).head?, s.lastCall + s.interval ≤ q.2 := by
  cases ts with
  | nil =>
    intro q hq
    simp [rateLimiterRun] at hq
  | cons t ts =>
    intro q hq
    simp only [rateLimiterRun, List.head?_cons, Option.mem_def, Option.some.injEq] at hq
    rw [← hq]
    exact RateLimiter.wait_ret_ge s t

lemma rateLimiterRun_chain (ts : List Int) :
    ∀ s : RateLimiter,
      List.Chain' (fun a b => a.2 + s.interval ≤ b.2) (rateLimiterRun s ts) := by
  induction ts with
  | nil =>
    intro s
    simp [rateLimiterRun]
  | cons t ts ih =>
    intro s
    simp only [rateLimiterRun]
    refine List.chain'_cons'.mpr ⟨?_, ?_⟩
    · intro q hq
      have h1 := rateLimiterRun_head_ret (s.wait t).2 ts q hq
      rw [RateLimiter.wait_lastCall_eq, RateLimiter.wait_interval_eq] at h1
      exact h1
    · have h2 := ih (s.wait t).2
      rw [RateLimiter.wait_interval_eq] at h2
      exact h2

/-- C9 (counterexample): with the OpenAI limiter interval of 1000 ms and a
fresh limiter (lastCall = 0), a first wait() starting at t = 5000 sees
5000 ms elapsed and returns immediately at 5000; a second wait() starting
right after, also at instant 5000 (legitimate under the sequential
discipline, since 5000 is not before the first return), gives a
start-to-start gap of 0 < 1000.  Only its return is delayed to 6000, so
the claimed bound on the gap between the STARTS of successive calls is
false. -/
theorem rateLimiter_start_gap_counterexample :
    rateLimiterRun { lastCall := 0, interval := 1000 } [5000, 5000]
      = [(5000, 5000), (5000, 6000)] ∧
    ((5000 : Int) - 5000 < 1000 ∧ (5000 : Int) ≤ 5000) := by
  decide

/-- C9 (amended): wait() returns at max(now, lastCall + intervalMs), which
is exactly "compute the elapsed time since the stored timestamp and suspend
for the remainder when the elapsed time is below intervalMs"; it stores the
return instant as the new timestamp immediately before returning; and along
any sequence of wait() calls on one limiter the gap between successive
RETURNS of wait() (the instants at which the rate-limited operations may
start) is at least intervalMs.  The gap between successive call STARTS can
be smaller, as the counterexample shows. -/
theorem rateLimiter_spacing_amended (s : RateLimiter) (now : Int) (ts : List Int) :
    (s.wait now).1 = max now (s.lastCall + s.interval) ∧
    (s.wait now).2.lastCall = (s.wait now).1 ∧
    (s.wait now).2.interval = s.interval ∧
    List.Chain' (fun a b => a.2 + s.interval ≤ b.2) (rateLimiterRun s ts) :=
  ⟨RateLimiter.wait_ret_max s now, RateLimiter.wait_lastCall_eq s now,
   RateLimiter.wait_interval_eq s now, rateLimiterRun_chain ts s⟩

lemma filterMap_length_lt_of_none {α β : Type} (f : α → Option β) :
    ∀ (l : List α) (x : α), x ∈ l → f x = none →
      (l.filterMap f).length < l.length := by
  intro l
  induction l with
  | nil =>
    intro x hx
    simp at hx
  | cons a l ih =>
    intro x hx hfx
    rcases List.mem_cons.mp hx with h1 | h2
    · subst h1
      rw [List.filterMap_cons_none hfx]
      simp only [List.length_cons]
      exact Nat.lt_succ_of_le (List.length_filterMap_le f l)
    · cases hfa : f a with
      | none =>
        rw [List.filterMap_cons_none hfa]
        simp only [List.length_cons]
        exact Nat.lt_succ_of_le (List.length_filterMap_le f l)
      | some b =>
        rw [List.filterMap_cons_some hfa]
        simp only [List.length_cons]
        exact Nat.succ_lt_succ (ih x h2 hfx)

lemma filterMap_eq_map_of_all_some {α β : Type} (f : α → Option β) (g : α → β) :
    ∀ l : List α, (∀ x ∈ l, f x = some (g x)) → l.filterMap f = l.map g := by
  intro l
  induction l with
  | nil =>
    intro h
    rfl
  | cons a l ih =>
    intro h
    rw [List.filterMap_cons_some (h a (List.mem_cons_self a l)), List.map_cons,
      ih (fun x hx => h x (List.mem_cons.mpr (Or.inr hx)))]

/-- The nine target languages, in the enumeration order of LANGUAGE_CODES
(the Object.keys order that translateText iterates in). -/
inductive Lang where
  | spanish
  | french
  | turkish
  | russian
  | ukrainian
  | portuguese
  | chinese
  | japanese
  | arabic
  deriving DecidableEq

/-- Object.keys(LANGUAGE_CODES), in declaration order. -/
def languages : List Lang :=
  [.spanish, .french, .turkish, .russian, .ukrainian, .portuguese,
   .chinese, .japanese, .arabic]

/-- LANGUAGE_CODES[lang].name. -/
def languageName : Lang → S
  | .spanish => str "Spanish"
  | .french => str "French"
  | .turkish => str "Turkish"
  | .russian => str "Russian"
  | .ukrainian => str "Ukrainian"
  | .portuguese => str "Portuguese"
  | .chinese => str "Chinese"
  | .japanese => str "Japanese"
  | .arabic => str "Arabic"

/-- The TranslationResult interface: one translated string per language key. -/
structure TranslationResult where
  spanish : S
  french : S
  turkish : S
  russian : S
  ukrainian : S
  portuguese : S
  chinese : S
  japanese : S
  arabic : S
  deriving DecidableEq

/-- Key lookup result[lang]. -/
def getLang (r : TranslationResult) : Lang → S
  | .spanish => r.spanish
  | .french => r.french
  | .turkish => r.turkish
  | .russian => r.russian
  | .ukrainian => r.ukrainian
  | .portuguese => r.portuguese
  | .chinese => r.chinese
  | .japanese => r.japanese
  | .arabic => r.arabic

/-- Key assignment result[lang] = v. -/
def setLang (r : TranslationResult) : Lang → S → TranslationResult
  | .spanish, v => { r with spanish := v }
  | .french, v => { r with french := v }
  | .turkish, v => { r with turkish := v }
  | .russian, v => { r with russian := v }
  | .ukrainian, v => { r with ukrainian := v }
  | .portuguese, v => { r with portuguese := v }
  | .chinese, v => { r with chinese := v }
  | .japanese, v => { r with japanese := v }
  | .arabic, v => { r with arabic := v }

/-- The value translateText stores under a language key: the translated
text on success, the empty string on failure. -/
def langOutput : Except S S → S
  | .ok t => t
  | .error _ => []

/-- The errors-array entry translateText pushes for a failed language:
`${LANGUAGE_CODES[lang].name}: ${errorMsg}`, none when the language
succeeded. -/
def langErrEntry (perLang : Lang → Except S S) (l : Lang) : Option S :=
  match perLang l with
  | .ok _ => none
  | .error e => some (languageName l ++ str ": " ++ e)

/-- The per-language loop of translateText (lines 248-268 of
src/src/services/translationService.ts).  perLang models the awaited
translateToLanguage call, that is, the outcome of one language after its
own retries.  On success the translation is stored under the key; on
failure the formatted message is appended to the errors array and the key
is set to the empty string. -/
def translateLoop (perLang : Lang → Except S S) :
    List Lang → TranslationResult → List S → TranslationResult × List S
  | [], r, errs => (r, errs)
  | l :: ls, r, errs =>
    match perLang l with
    | .ok t => translateLoop perLang ls (setLang r l t) errs
    | .error e =>
      translateLoop perLang ls (setLang r l [])
        (errs ++ [languageName l ++ str ": " ++ e])

/-- The result object before any assignment (the source starts from the
empty partial object; the loop assigns every key exactly once, so these
defaults are never returned for a processed language). -/
def emptyResult : TranslationResult :=
  ⟨[], [], [], [], [], [], [], [], []⟩

/-- translateText from src/src/services/translationService.ts (lines
236-283), instrumented: alongside the settled outcome it returns the list
of languages whose per-language translation (and hence network activity)
was started.  The blank check is `!text.trim()`: the input is blank when
every character is whitespace. -/
def translateTextRun (perLang : Lang → Except S S) (text : S) :
    Except S TranslationResult × List Lang :=
  if text.all isJsWs then
    (.error (str "No text provided for translation"), [])
  else if (translateLoop perLang languages emptyResult []).2.length
      = languages.length then
    (.error (str "All translations failed. Errors: "
        ++ List.intercalate (str "; ")
            (translateLoop perLang languages emptyResult []).2),
     languages)
  else
    (.ok (translateLoop perLang languages emptyResult []).1, languages)

/-- The value of the exported translateText promise. -/
def translateText (perLang : Lang → Except S S) (text : S) :
    Except S TranslationResult :=
  (translateTextRun perLang text).1

lemma getLang_setLang_self (r : TranslationResult) (l : Lang) (v : S) :
    getLang (setLang r l v) l = v := by
  cases l <;> rfl

lemma getLang_setLang_ne (r : TranslationResult) (l l' : Lang) (v : S)
    (h : l' ≠ l) : getLang (setLang r l v) l' = getLang r l' := by
  cases l <;> cases l' <;> first | rfl | exact absurd rfl h

lemma mem_languages (l : Lang) : l ∈ languages := by
  cases l <;> simp [languages]

lemma translateLoop_errs (perLang : Lang → Except S S) :
    ∀ (ls : List Lang) (r : TranslationResult) (errs : List S),
      (translateLoop perLang ls r errs).2
        = errs ++ ls.filterMap (langErrEntry perLang) := by
  intro ls
  induction ls with
  | nil =>
    intro r errs
    simp [translateLoop]
  | cons l ls ih =>
    intro r errs
    cases hl : perLang l with
    | ok t =>
      simp only [translateLoop, hl]
      rw [ih, List.filterMap_cons_none (by simp [langErrEntry, hl])]
    | error e =>
      simp only [translateLoop, hl]
      rw [ih, List.filterMap_cons_some
        (show langErrEntry perLang l = some (languageName l ++ str ": " ++ e) by
          simp [langErrEntry, hl])]
      simp [List.append_assoc]

lemma translateLoop_get_notmem (perLang : Lang → Except S S) :
    ∀ (ls : List Lang) (r : TranslationResult) (errs : List S) (l : Lang),
      l ∉ ls → getLang (translateLoop perLang ls r errs).1 l = getLang r l := by
  intro ls
  induction ls with
  | nil =>
    intro r errs l h
    simp [translateLoop]
  | cons x ls ih =>
    intro r errs l h
    have hne : l ≠ x := fun hh => h (hh ▸ List.mem_cons_self x ls)
    have hnot : l ∉ ls := fun hh => h (List.mem_cons.mpr (Or.inr hh))
    cases hx : perLang x with
    | ok t =>
      simp only [translateLoop, hx]
      rw [ih _ _ l hnot, getLang_setLang_ne _ _ _ _ hne]
    | error e =>
      simp only [translateLoop, hx]
      rw [ih _ _ l hnot, getLang_setLang_ne _ _ _ _ hne]

lemma translateLoop_get_mem (perLang : Lang → Except S S) :
    ∀ (ls : List Lang) (r : TranslationResult) (errs : List S),
      ls.Nodup → ∀ l ∈ ls,
        getLang (translateLoop perLang ls r errs).1 l = langOutput (perLang l) := by
  intro ls
  induction ls with
  | nil =>
    intro r errs hnd l hl
    simp at hl
  | cons x ls ih =>
    intro r errs hnd l hl
    have hxnot : x ∉ ls := (List.nodup_cons.mp hnd).1
    have hnd' : ls.Nodup := (List.nodup_cons.mp hnd).2
    rcases List.mem_cons.mp hl with h1 | h2
    · subst h1
      cases hx : perLang l with
      | ok t =>
        simp only [translateLoop, hx]
        rw [translateLoop_get_notmem perLang ls _ _ l hxnot, getLang_setLang_self]
        simp [langOutput]
      | error e =>
        simp only [translateLoop, hx]
        rw [translateLoop_get_notmem perLang ls _ _ l hxnot, getLang_setLang_self]
        simp [langOutput]
    · cases hx : perLang x with
      | ok t =>
        simp only [translateLoop, hx]
        exact ih _ _ hnd' l h2
      | error e =>
        simp only [translateLoop, hx]
        exact ih _ _ hnd' l h2

lemma translateText_resolves_spec (perLang : Lang → Except S S) (text : S)
    (hblank : text.all isJsWs = false)
    (hsucc : ∃ l t, perLang l = Except.ok t) :
    ∃ r, translateText perLang text = Except.ok r ∧
      ∀ l, getLang r l = langOutput (perLang l) := by
  obtain ⟨l0, t0, hl0⟩ := hsucc
  have hentry : langErrEntry perLang l0 = none := by simp [langErrEntry, hl0]
  have herrs := translateLoop_errs perLang languages emptyResult []
  have hlt : (languages.filterMap (langErrEntry perLang)).length < languages.length :=
    filterMap_length_lt_of_none _ languages l0 (mem_languages l0) hentry
  have hne : ¬ ((translateLoop perLang languages emptyResult []).2.length
      = languages.length) := by
    rw [herrs, List.nil_append]
    omega
  refine ⟨(translateLoop perLang languages emptyResult []).1, ?_, ?_⟩
  · unfold translateText translateTextRun
    rw [if_neg (by simp [hblank]), if_neg hne]
  · intro l
    exact translateLoop_get_mem perLang languages emptyResult [] (by decide)
      l (mem_languages l)

/-- C1: for a non-blank input, whenever the mocked per-language translation
(the outcome of translateToLanguage after its retries) fails for some but
not all of the nine languages, translateText resolves with a
TranslationResult in which every succeeded language carries its translated
text and every failed language carries the empty string; all nine keys are
present by construction of TranslationResult.  (Blank input is excluded
because it is rejected up front — that behaviour is the subject of the
blank-input property.) -/
theorem translateText_some_failures_still_resolves
    (perLang : Lang → Except S S) (text : S)
    (hblank : text.all isJsWs = false)
    (hsucc : ∃ l t, perLang l = Except.ok t)
    (hfail : ∃ l e, perLang l = Except.error e) :
    ∃ r, translateText perLang text = Except.ok r ∧
      (∀ l t, perLang l = Except.ok t → getLang r l = t) ∧
      (∀ l e, perLang l = Except.error e → getLang r l = []) := by
  obtain ⟨r, hr, hspec⟩ := translateText_resolves_spec perLang text hblank hsucc
  refine ⟨r, hr, ?_, ?_⟩
  · intro l t hl
    rw [hspec l, hl]
    rfl
  · intro l e hl
    rw [hspec l, hl]
    rfl

/-- A mock per-language behaviour where Spanish fails after retries and the
other eight languages succeed. -/
def mixedPerLang : Lang → Except S S
  | .spanish => .error (str "HTTP 500")
  | _ => .ok (str "done")

/-- Witness for C1 at the mock behaviour where only Spanish fails. -/
theorem translateText_some_failures_still_resolves_witness :
    ∃ r, translateText mixedPerLang (str "Hello") = Except.ok r ∧
      (∀ l t, mixedPerLang l = Except.ok t → getLang r l = t) ∧
      (∀ l e, mixedPerLang l = Except.error e → getLang r l = []) :=
  translateText_some_failures_still_resolves mixedPerLang (str "Hello")
    (by decide) ⟨.french, str "done", rfl⟩ ⟨.spanish, str "HTTP 500", rfl⟩

/-- C2: for a non-blank input, when every one of the nine languages fails
after retries, translateText rejects with the single aggregate error whose
message is the concatenation of all nine formatted per-language error
messages (joined by semicolons after the fixed preamble); and this is the
only way a per-language failure reaches the caller as a rejection: as soon
as at least one language succeeds, translateText resolves. -/
theorem translateText_all_failed_aggregates
    (perLang : Lang → Except S S) (errOf : Lang → S) (text : S)
    (hblank : text.all isJsWs = false)
    (hfail : ∀ l, perLang l = Except.error (errOf l)) :
    translateText perLang text
        = Except.error (str "All translations failed. Errors: "
            ++ List.intercalate (str "; ")
                (languages.map (fun l => languageName l ++ str ": " ++ errOf l))) ∧
    (∀ otherPerLang : Lang → Except S S, (∃ l t, otherPerLang l = Except.ok t) →
        ∃ r, translateText otherPerLang text = Except.ok r) := by
  constructor
  · have herrs := translateLoop_errs perLang languages emptyResult []
    have hmap : languages.filterMap (langErrEntry perLang)
        = languages.map (fun l => languageName l ++ str ": " ++ errOf l) :=
      filterMap_eq_map_of_all_some _ _ languages
        (fun l _ => by simp [langErrEntry, hfail l])
    have hlen : (translateLoop perLang languages emptyResult []).2.length
        = languages.length := by
      rw [herrs, List.nil_append, hmap, List.length_map]
    unfold translateText translateTextRun
    rw [if_neg (by simp [hblank]), if_pos hlen, herrs, List.nil_append, hmap]
  · intro p2 hsucc
    obtain ⟨r, hr, _⟩ := translateText_resolves_spec p2 text hblank hsucc
    exact ⟨r, hr⟩

/-- A mock per-language behaviour where every language fails after retries. -/
def allFailPerLang : Lang → Except S S := fun _ => .error (str "HTTP 500")

/-- Witness for C2 at the all-failing mock behaviour. -/
theorem translateText_all_failed_aggregates_witness :
    translateText allFailPerLang (str "Hello")
        = Except.error (str "All translations failed. Errors: "
            ++ List.intercalate (str "; ")
                (languages.map (fun l => languageName l ++ str ": " ++ str "HTTP 500"))) ∧
    (∀ otherPerLang : Lang → Except S S, (∃ l t, otherPerLang l = Except.ok t) →
        ∃ r, translateText otherPerLang (str "Hello") = Except.ok r) :=
  translateText_all_failed_aggregates allFailPerLang (fun _ => str "HTTP 500")
    (str "Hello") (by decide) (fun _ => rfl)

/-- C3: an input whose every character is whitespace (so that text.trim()
is empty, covering "" and "   ") makes translateText reject with the
input-kind error "No text provided for translation", and the instrumented
run shows that no per-language translation is started, hence no chunking
or network call is attempted: the outcome is independent of perLang and the
list of processed languages is empty. -/
theorem translateText_blank_input_rejects_without_calls
    (perLang : Lang → Except S S) (text : S)
    (hblank : text.all isJsWs = true) :
    translateTextRun perLang text
      = (Except.error (str "No text provided for translation"), []) := by
  unfold translateTextRun
  rw [if_pos hblank]

/-- Witness for C3 at both inputs the claim names, "" and "   ". -/
theorem translateText_blank_input_rejects_without_calls_witness :
    translateTextRun mixedPerLang []
        = (Except.error (str "No text provided for translation"), []) ∧
    translateTextRun mixedPerLang (str "   ")
        = (Except.error (str "No text provided for translation"), []) :=
  ⟨translateText_blank_input_rejects_without_calls mixedPerLang [] (by decide),
   translateText_blank_input_rejects_without_calls mixedPerLang (str "   ") (by decide)⟩

/-- response.ok of the fetch API: the HTTP status is in the 2xx range. -/
def responseOk (status : Nat) : Bool := 200 ≤ status && status < 300

/-- The status validation of translateWithOpenAI
(src/src/services/translationService.ts, lines 204-207): every non-2xx
response throws the one generic provider error carrying the status code and
the response body; there is no separate branch for 429 or 401/403.  none
means the response is accepted and the body is parsed. -/
def openaiStatusError (status : Nat) (errorText : S) : Option S :=
  if responseOk status then none
  else some (str "OpenAI API error: " ++ (Nat.repr status).data
      ++ str " - " ++ errorText)

/-- The status validation of translateWithGoogle (multi-provider variant,
src/unnamed/part_002, lines 235-243): 429 and 403 throw dedicated messages
and every other non-2xx response throws the generic provider error carrying
the status code. -/
def googleStatusError (status : Nat) : Option S :=
  if responseOk status then none
  else if status = 429 then some (str "Rate limited by Google Translate")
  else if status = 403 then some (str "Access forbidden to Google Translate service")
  else some (str "Google Translate API error: " ++ (Nat.repr status).data)

/-- C8 (counterexample): a 401 response is NOT classified as an auth/access
kind of error.  In the Google client the claim cites, 401 falls through to
the generic provider branch, carrying only the status code, while the
dedicated access message is produced solely for 403; and in the primary
OpenAI client even 429 produces the same generic provider template as 500,
so no rate-limit kind distinct from other kinds exists there. -/
theorem statusError_counterexample :
    googleStatusError 401 = some (str "Google Translate API error: 401") ∧
    googleStatusError 401 ≠ some (str "Access forbidden to Google Translate service") ∧
    googleStatusError 403 = some (str "Access forbidden to Google Translate service") ∧
    openaiStatusError 429 (str "x") = some (str "OpenAI API error: 429 - x") ∧
    openaiStatusError 500 (str "x") = some (str "OpenAI API error: 500 - x") := by
  decide

/-- C8 (amended): both translation clients validate the HTTP status before
extracting a result and never treat a non-2xx response as a successful or
empty translation; the Google client classifies 429 as a rate-limit error
and 403 as an access error, while 401 and every other non-2xx status give
the generic provider error carrying the status code; the primary OpenAI
client gives the generic provider error carrying the status code for every
non-2xx status, 429 and 401/403 included. -/
theorem statusError_amended :
    (∀ status : Nat, responseOk status = true →
        googleStatusError status = none
          ∧ ∀ et, openaiStatusError status et = none) ∧
    (∀ status : Nat, responseOk status = false →
        (googleStatusError status).isSome = true
          ∧ ∀ et, (openaiStatusError status et).isSome = true) ∧
    googleStatusError 429 = some (str "Rate limited by Google Translate") ∧
    googleStatusError 403 = some (str "Access forbidden to Google Translate service") ∧
    (∀ status : Nat, responseOk status = false → status ≠ 429 → status ≠ 403 →
        googleStatusError status
          = some (str "Google Translate API error: " ++ (Nat.repr status).data)) ∧
    (∀ (status : Nat) (et : S), responseOk status = false →
        openaiStatusError status et
          = some (str "OpenAI API error: " ++ (Nat.repr status).data
              ++ str " - " ++ et)) := by
  refine ⟨?_, ?_, by decide, by decide, ?_, ?_⟩
  · intro status h
    exact ⟨by simp [googleStatusError, h], fun et => by simp [openaiStatusError, h]⟩
  · intro status h
    refine ⟨?_, fun et => by simp [openaiStatusError, h]⟩
    unfold googleStatusError
    rw [h]
    simp only [Bool.false_eq_true, if_false]
    split
    · rfl
    · split <;> rfl
  · intro status h h429 h403
    unfold googleStatusError
    rw [h]
    simp only [Bool.false_eq_true, if_false]
    rw [if_neg h429, if_neg h403]
  · intro status et h
    unfold openaiStatusError
    rw [h]
    simp only [Bool.false_eq_true, if_false]

/-- Witness for the amended C8 theorem at concrete non-2xx statuses with
the hypotheses discharged. -/
theorem statusError_amended_witness :
    googleStatusError 500
        = some (str "Google Translate API error: " ++ (Nat.repr 500).data) ∧
    openaiStatusError 418 (str "teapot")
        = some (str "OpenAI API error: " ++ (Nat.repr 418).data
            ++ str " - " ++ str "teapot") :=
  ⟨statusError_amended.2.2.2.2.1 500 (by decide) (by decide) (by decide),
   statusError_amended.2.2.2.2.2 418 (str "teapot") (by decide)⟩

/-- mockTranslate from the fallback-enabled variant (src/unnamed/part_007,
lines 406-436): each language key carries a fixed language-tag marker
concatenated with the original input.  The simulated network delay does not
affect the value and the function cannot throw. -/
def mockTranslate (text : S) : TranslationResult :=
  ⟨str "[ES] " ++ text, str "[FR] " ++ text, str "[TR] " ++ text,
   str "[RU] " ++ text, str "[UA] " ++ text, str "[PT] " ++ text,
   str "[ZH] " ++ text, str "[JA] " ++ text, str "[AR] " ++ text⟩

/-- The shouldUseMockFallback flag of the fallback-enabled variant, set to
true in the source (src/unnamed/part_007, line 468). -/
def shouldUseMockFallback : Bool := true

/-- translateText of the fallback-enabled variant (src/unnamed/part_007,
lines 439-483): blank input resolves immediately with the all-empty result;
otherwise the outcome `real` of the real pipeline (freeGoogleTranslate) is
returned when it succeeded, and when it threw, the mock result replaces it
if shouldUseMockFallback is set, the original pipeline error being rethrown
only otherwise. -/
def translateTextFallbackVariant (real : Except S TranslationResult) (text : S) :
    Except S TranslationResult :=
  if text.all isJsWs then .ok emptyResult
  else
    match real with
    | .ok r => .ok r
    | .error e => if shouldUseMockFallback then .ok (mockTranslate text) else .error e

/-- C10: in the fallback-enabled variant, when the real pipeline throws for
a non-blank input, translateText does not reject: it resolves with the mock
TranslationResult mapping each language to its fixed tag marker followed by
the original input, silently converting a total provider failure into
placeholder output. -/
theorem translateTextFallback_mocks_total_failure (text : S) (e : S)
    (hblank : text.all isJsWs = false) :
    translateTextFallbackVariant (Except.error e) text
        = Except.ok (mockTranslate text) ∧
    getLang (mockTranslate text) Lang.spanish = str "[ES] " ++ text ∧
    getLang (mockTranslate text) Lang.french = str "[FR] " ++ text ∧
    getLang (mockTranslate text) Lang.turkish = str "[TR] " ++ text ∧
    getLang (mockTranslate text) Lang.russian = str "[RU] " ++ text ∧
    getLang (mockTranslate text) Lang.ukrainian = str "[UA] " ++ text ∧
    getLang (mockTranslate text) Lang.portuguese = str "[PT] " ++ text ∧
    getLang (mockTranslate text) Lang.chinese = str "[ZH] " ++ text ∧
    getLang (mockTranslate text) Lang.japanese = str "[JA] " ++ text ∧
    getLang (mockTranslate text) Lang.arabic = str "[AR] " ++ text := by
  refine ⟨?_, rfl, rfl, rfl, rfl, rfl, rfl, rfl, rfl, rfl⟩
  unfold translateTextFallbackVariant
  rw [if_neg (by simp [hblank])]
  rfl

/-- Witness for C10 at a concrete input and pipeline error. -/
theorem translateTextFallback_mocks_total_failure_witness :
    translateTextFallbackVariant (Except.error (str "HTTP 429")) (str "Hello")
        = Except.ok (mockTranslate (str "Hello")) ∧
    getLang (mockTranslate (str "Hello")) Lang.spanish = str "[ES] " ++ str "Hello" ∧
    getLang (mockTranslate (str "Hello")) Lang.french = str "[FR] " ++ str "Hello" ∧
    getLang (mockTranslate (str "Hello")) Lang.turkish = str "[TR] " ++ str "Hello" ∧
    getLang (mockTranslate (str "Hello")) Lang.russian = str "[RU] " ++ str "Hello" ∧
    getLang (mockTranslate (str "Hello")) Lang.ukrainian = str "[UA] " ++ str "Hello" ∧
    getLang (mockTranslate (str "Hello")) Lang.portuguese = str "[PT] " ++ str "Hello" ∧
    getLang (mockTranslate (str "Hello")) Lang.chinese = str "[ZH] " ++ str "Hello" ∧
    getLang (mockTranslate (str "Hello")) Lang.japanese = str "[JA] " ++ str "Hello" ∧
    getLang (mockTranslate (str "Hello")) Lang.arabic = str "[AR] " ++ str "Hello" :=
  translateTextFallback_mocks_total_failure (str "Hello") (str "HTTP 429") (by decide)
